import Mathlib

/-!
Shallow embedding of the currency recognition engine of ChangeBot
(src/services/recognizer.py).

Texts are lists of characters.  Every number the engine manipulates is
an exact decimal (a numeric literal made of digits, or such a literal
times an integral power-of-ten multiplier), so Python floats are
modelled exactly by a Nat mantissa with a power-of-ten denominator
(`Dec`, with rational value `Dec.toRat`); a Python exception is
modelled by an Option whose value none means "an exception escaped".  The regular expressions of the source are
embedded operationally: each alternative of COMBINED_PATTERN becomes a
function that enumerates candidate matches in exactly the backtracking
order of the Python regex engine (greedy quantifiers produce their
longest candidate first, alternations are tried left to right, the
trie-built alternations of trie_regex_from_words prefer the longest
token), and finditer becomes a left-to-right scan that resumes at the
end of each match.
-/

/-- Character class of the regex `\d` restricted to the ASCII digits the
recognizer's inputs use. -/
def isDigitC (c : Char) : Bool := '0' ≤ c && c ≤ '9'

/-- Character class of the regex `\s` (the six ASCII whitespace
characters Python's re engine accepts for ASCII text). -/
def isSpaceC (c : Char) : Bool :=
  c = ' ' || c = '\t' || c = '\n' || c = '\r' || c = '\x0b' || c = '\x0c'

/-- Lowercase Cyrillic range а-я (U+0430..U+044F), as written in the
source's character class; note that ё (U+0451) is outside it. -/
def isCyrLowerC (c : Char) : Bool := 0x0430 ≤ c.val && c.val ≤ 0x044F

/-- Uppercase Cyrillic range А-Я (U+0410..U+042F). -/
def isCyrUpperC (c : Char) : Bool := 0x0410 ≤ c.val && c.val ≤ 0x042F

/-- The character class `[a-zA-Zа-яА-Я]` of the suffix-multiplier
lookahead `(?![a-zA-Zа-яА-Я])`. -/
def isLetterLA (c : Char) : Bool :=
  ('a' ≤ c && c ≤ 'z') || ('A' ≤ c && c ≤ 'Z') || isCyrLowerC c || isCyrUpperC c

/-- Word characters for the regex `\b` boundary, covering the scripts the
recognizer distinguishes (ASCII alphanumerics, underscore, Cyrillic). -/
def isWordC (c : Char) : Bool :=
  isDigitC c || ('a' ≤ c && c ≤ 'z') || ('A' ≤ c && c ≤ 'Z') || c = '_' ||
    (0x0400 ≤ c.val && c.val ≤ 0x04FF)

/-- Python str.lower restricted to the scripts the recognizer
distinguishes (ASCII Latin and Cyrillic, including Ё). -/
def pyLower (c : Char) : Char :=
  if 'A' ≤ c && c ≤ 'Z' then Char.ofNat (c.toNat + 32)
  else if isCyrUpperC c then Char.ofNat (c.toNat + 32)
  else if c.val = 0x0401 then Char.ofNat 0x0451
  else c

/-- CurrencyRecognizer.SYMBOLS: glyphs accepted in strict mode. -/
def SYMBOLS : List String := ["$", "€", "£", "¥", "₽", "₸", "₿"]

/-- CurrencyRecognizer.SLANG_MAP after the class-body merge loop that
adds every lowercased VALID_CURRENCIES code not already present
("btc", "eth", "ton", "usdt", "cny" were already keys; "usd", "eur",
"rub", "gbp", "kzt", "try", "jpy" are appended). -/
def SLANG_MAP : List (String × String) :=
  [("бакс", "USD"), ("баксов", "USD"), ("баксы", "USD"), ("dollar", "USD"),
   ("$", "USD"), ("доллар", "USD"), ("доллара", "USD"), ("долларов", "USD"),
   ("доллары", "USD"),
   ("евро", "EUR"), ("euro", "EUR"), ("€", "EUR"),
   ("руб", "RUB"), ("рубль", "RUB"), ("рублей", "RUB"), ("р", "RUB"),
   ("ruble", "RUB"), ("₽", "RUB"),
   ("фунт", "GBP"), ("pound", "GBP"), ("£", "GBP"), ("фунтов", "GBP"),
   ("фунта", "GBP"),
   ("тенге", "KZT"), ("тг", "KZT"), ("₸", "KZT"),
   ("юань", "CNY"), ("юаней", "CNY"), ("юаня", "CNY"), ("cny", "CNY"),
   ("¥", "CNY"),
   ("биток", "BTC"), ("битка", "BTC"), ("битков", "BTC"), ("btc", "BTC"),
   ("bitcoin", "BTC"), ("₿", "BTC"),
   ("эфир", "ETH"), ("эфира", "ETH"), ("эфиров", "ETH"), ("eth", "ETH"),
   ("ethereum", "ETH"),
   ("ton", "TON"), ("тон", "TON"),
   ("usdt", "USDT"), ("tether", "USDT"),
   ("usd", "USD"), ("eur", "EUR"), ("rub", "RUB"), ("gbp", "GBP"),
   ("kzt", "KZT"), ("try", "TRY"), ("jpy", "JPY")]

/-- CurrencyRecognizer.MULTIPLIER_MAP (the float values are all
integral, and are modelled as naturals). -/
def MULTIPLIER_MAP : List (String × Nat) :=
  [("k", 1000), ("к", 1000), ("m", 1000000), ("м", 1000000),
   ("косарь", 1000), ("косаря", 1000), ("косарей", 1000),
   ("тонна", 1000), ("лям", 1000000), ("лямов", 1000000),
   ("тысяча", 1000), ("тысячи", 1000), ("тысяч", 1000),
   ("миллион", 1000000), ("миллиона", 1000000), ("миллионов", 1000000),
   ("млн", 1000000),
   ("миллиард", 1000000000), ("миллиарда", 1000000000),
   ("миллиардов", 1000000000), ("млрд", 1000000000),
   ("триллион", 1000000000000), ("триллиона", 1000000000000),
   ("триллионов", 1000000000000), ("трлн", 1000000000000)]

/-- CurrencyRecognizer.IMPLIED_RUBLE_TOKENS. -/
def IMPLIED_RUBLE_TOKENS : List String :=
  ["косарь", "косаря", "косарей", "лям", "лямов", "тонна"]

/-- CurrencyRecognizer.SLANG_AMOUNT_CURRENCY (the fixed amounts are
integral and are modelled as naturals). -/
def SLANG_AMOUNT_CURRENCY : List (String × Nat × String) :=
  [("косарь", 1000, "RUB"), ("косаря", 1000, "RUB"), ("косарей", 1000, "RUB"),
   ("лям", 1000000, "RUB"), ("лямов", 1000000, "RUB")]

/-- _WORD_MULTIPLIERS: the MULTIPLIER_MAP keys longer than one character,
in the dictionary's insertion order. -/
def WORD_MULTIPLIERS : List String :=
  ["косарь", "косаря", "косарей", "тонна", "лям", "лямов",
   "тысяча", "тысячи", "тысяч",
   "миллион", "миллиона", "миллионов", "млн",
   "миллиард", "миллиарда", "миллиардов", "млрд",
   "триллион", "триллиона", "триллионов", "трлн"]

/-- _CURRENCY_TOKENS: the union of the SLANG_MAP keys and
IMPLIED_RUBLE_TOKENS (the source sorts this set, but the order of the
word list is irrelevant to the trie that is built from it). -/
def CURRENCY_TOKENS : List String :=
  SLANG_MAP.map (fun p => p.1) ++ IMPLIED_RUBLE_TOKENS

/-- _SLANG_TOKENS: the keys of SLANG_AMOUNT_CURRENCY. -/
def SLANG_TOKENS : List String := SLANG_AMOUNT_CURRENCY.map (fun p => p.1)

/-- The trie of trie_regex_from_words: a node records whether a word
ends here and the children keyed by character. -/
inductive Trie where
  | node : Bool → List (Char × Trie) → Trie
deriving Repr

/-- Replace (or add) the child of a trie node for character c. -/
def setChild (ch : List (Char × Trie)) (c : Char) (t : Trie) :
    List (Char × Trie) :=
  match ch with
  | [] => [(c, t)]
  | p :: rest => if p.1 = c then (c, t) :: rest else p :: setChild rest c t

/-- trie insertion, mirroring the dict-of-dicts construction in
trie_regex_from_words. -/
def Trie.insert : Trie → List Char → Trie
  | .node _ ch, [] => .node true ch
  | .node e ch, c :: w =>
    let sub := match ch.find? (fun p => p.1 = c) with
      | some p => p.2
      | none => .node false []
    .node e (setChild ch c (sub.insert w))

/-- Build the trie of a word list. -/
def Trie.ofWords (ws : List String) : Trie :=
  ws.foldl (fun t w => t.insert w.toList) (.node false [])

/-- The lengths of all dictionary tokens that begin the input, in the
order the regex produced by trie_regex_from_words tries them: the
regex makes the continuation of every completed word an optional greedy
group, so longer tokens are tried before shorter ones. -/
def Trie.cands (t : Trie) (cs : List Char) : List Nat :=
  match cs, t with
  | [], .node e _ => if e then [0] else []
  | c :: rest, .node e ch =>
    (match ch.find? (fun p => p.1 = c) with
     | some p => (Trie.cands p.2 rest).map (fun l => l + 1)
     | none => []) ++ (if e then [0] else [])

/-- Whether a word is stored in the trie. -/
def Trie.mem : Trie → List Char → Bool
  | .node e _, [] => e
  | .node _ ch, c :: w =>
    match ch.find? (fun p => p.1 = c) with
    | some p => p.2.mem w
    | none => false

/-- Whether the root of the trie marks the end of a word (true only when
the empty word was inserted). -/
def Trie.rootEnd : Trie → Bool
  | .node e _ => e

def wordMultTrie : Trie := Trie.ofWords WORD_MULTIPLIERS
def currencyTrie : Trie := Trie.ofWords CURRENCY_TOKENS
def slangTrie : Trie := Trie.ofWords SLANG_TOKENS

/-- Length of the leading digit run (the greedy match of `\d+`). -/
def digitRun (cs : List Char) : Nat := (cs.takeWhile isDigitC).length

/-- Length of the leading whitespace run. -/
def spaceRun (cs : List Char) : Nat := (cs.takeWhile isSpaceC).length

/-- Candidate lengths of the amount group `\d+(?:[.,]\d+)?` in the
backtracking order of the regex engine: with n leading digits followed
by a separator and m more digits, the engine tries the fractional forms
n+1+m, ..., n+2 first and then the plain digit forms n, ..., 1. -/
def amountCands (cs : List Char) : List Nat :=
  let n := digitRun cs
  if n = 0 then []
  else
    (match cs.drop n with
     | c :: rest =>
       if c = '.' || c = ',' then
         (List.range (digitRun rest)).map (fun i => n + 1 + (digitRun rest - i))
       else []
     | [] => []) ++ (List.range n).map (fun i => n - i)

/-- Candidate lengths of `\s*` (greedy: longest first, down to 0). -/
def spaceCands (cs : List Char) : List Nat :=
  (List.range (spaceRun cs + 1)).map (fun i => spaceRun cs - i)

/-- Candidate of the suffix multiplier `[kкmм](?![a-zA-Zа-яА-Я])`. -/
def suffixCand (cs : List Char) : List Nat :=
  match cs with
  | c :: rest =>
    if (c = 'k' || c = 'к' || c = 'm' || c = 'м') &&
        !(match rest with | d :: _ => isLetterLA d | [] => false) then [1]
    else []
  | [] => []

/-- Candidate lengths of MULTIPLIER_REGEX `(?:suffix|word-trie)`:
the suffix alternative is tried first, then the trie words. -/
def multCands (cs : List Char) : List Nat :=
  suffixCand cs ++ wordMultTrie.cands cs

/-- Candidate lengths of the currency-token alternation. -/
def currCands (cs : List Char) : List Nat := currencyTrie.cands cs

/-- Candidate lengths of the standalone-slang alternation. -/
def slangCands (cs : List Char) : List Nat := slangTrie.cands cs

/-- The three shapes of a COMBINED_PATTERN match: groups 1-3 (amount,
optional multiplier, currency), groups 4-6 (currency, amount, optional
multiplier), group 7 (standalone slang word). -/
inductive RawMatch where
  | mA : List Char → Option (List Char) → List Char → RawMatch
  | mB : List Char → List Char → Option (List Char) → RawMatch
  | mC : List Char → RawMatch
deriving DecidableEq, Repr

/-- Attempt the first alternative
`(\d+(?:[.,]\d+)?)\s*(MULT)?\s*(CURR)` of COMBINED_PATTERN on a suffix,
enumerating backtracking candidates rightmost-first exactly as the
regex engine does; returns the consumed length and the groups. -/
def tryAlt1 (cs : List Char) : Option (Nat × RawMatch) :=
  (amountCands cs).findSome? fun aLen =>
    let cs1 := cs.drop aLen
    (spaceCands cs1).findSome? fun w1 =>
      let cs2 := cs1.drop w1
      ((multCands cs2).map some ++ [none]).findSome? fun (mo : Option Nat) =>
        let mLen := mo.getD 0
        let cs3 := cs2.drop mLen
        (spaceCands cs3).findSome? fun w2 =>
          let cs4 := cs3.drop w2
          match (currCands cs4).head? with
          | some cLen =>
            some (aLen + w1 + mLen + w2 + cLen,
              .mA (cs.take aLen) (mo.map fun l => cs2.take l) (cs4.take cLen))
          | none => none

/-- Attempt the second alternative
`(CURR)\s*(\d+(?:[.,]\d+)?)\s*(MULT)?`.  Everything after the amount is
optional, so the amount and the trailing whitespace are greedy and the
trailing multiplier takes its first candidate if any. -/
def tryAlt2 (cs : List Char) : Option (Nat × RawMatch) :=
  (currCands cs).findSome? fun cLen =>
    let cs1 := cs.drop cLen
    (spaceCands cs1).findSome? fun w1 =>
      let cs2 := cs1.drop w1
      match (amountCands cs2).head? with
      | some aLen =>
        let cs3 := cs2.drop aLen
        let w2 := spaceRun cs3
        let cs4 := cs3.drop w2
        let mo := (multCands cs4).head?
        some (cLen + w1 + aLen + w2 + mo.getD 0,
          .mB (cs.take cLen) (cs2.take aLen) (mo.map fun l => cs4.take l))
      | none => none

/-- The lookbehind `(?<!\d)` at a position. -/
def noDigitBefore (cs : List Char) (pos : Nat) : Bool :=
  match pos with
  | 0 => true
  | p + 1 => !((cs[p]?).any isDigitC)

/-- The lookbehind `(?<!\d\s)` at a position. -/
def noDigitSpaceBefore (cs : List Char) (pos : Nat) : Bool :=
  match pos with
  | q + 2 => !((cs[q]?).any isDigitC && (cs[q + 1]?).any isSpaceC)
  | _ => true

/-- Attempt the third alternative `(?<!\d)\s*(?<!\d\s)(SLANG)\b` (also
the body of STANDALONE_SLANG_PATTERN) at an absolute position; the
lookbehinds inspect the characters before the position. -/
def tryAlt3 (cs : List Char) (pos : Nat) : Option (Nat × RawMatch) :=
  if noDigitBefore cs pos then
    (spaceCands (cs.drop pos)).findSome? fun w =>
      let q := pos + w
      if noDigitSpaceBefore cs q then
        (slangCands (cs.drop q)).findSome? fun sLen =>
          if (cs[q + sLen]?).all (fun c => !isWordC c) then
            some (w + sLen, .mC ((cs.drop q).take sLen))
          else none
      else none
  else none

/-- One attempt of COMBINED_PATTERN at a position: the three
alternatives in order; returns the absolute end of the match. -/
def tryAt (cs : List Char) (pos : Nat) : Option (Nat × RawMatch) :=
  match tryAlt1 (cs.drop pos) with
  | some (len, m) => some (pos + len, m)
  | none =>
    match tryAlt2 (cs.drop pos) with
    | some (len, m) => some (pos + len, m)
    | none =>
      match tryAlt3 cs pos with
      | some (len, m) => some (pos + len, m)
      | none => none

/-- One attempt of STANDALONE_SLANG_PATTERN at a position. -/
def tryAtSlang (cs : List Char) (pos : Nat) : Option (Nat × RawMatch) :=
  match tryAlt3 cs pos with
  | some (len, m) => some (pos + len, m)
  | none => none

/-- finditer: scan left to right, resuming after each match (fuel bounds
the number of scan steps; every step advances the position, so
length + 1 steps always suffice). -/
def scanAux (step : List Char → Nat → Option (Nat × RawMatch))
    (cs : List Char) : Nat → Nat → List (Nat × Nat × RawMatch)
  | 0, _ => []
  | f + 1, pos =>
    if pos > cs.length then []
    else
      match step cs pos with
      | some (e, m) => (pos, e, m) :: scanAux step cs f (max e (pos + 1))
      | none => scanAux step cs f (pos + 1)

/-- All COMBINED_PATTERN matches of a text, with their spans. -/
def scanRaw (cs : List Char) : List (Nat × Nat × RawMatch) :=
  scanAux tryAt cs (cs.length + 1) 0

/-- All STANDALONE_SLANG_PATTERN matches of a text, with their spans. -/
def scanSlangRaw (cs : List Char) : List (Nat × Nat × RawMatch) :=
  scanAux tryAtSlang cs (cs.length + 1) 0

/-- An exact decimal: the value mant / 10 ^ exp.  Every number the
engine computes has this form (digit strings possibly with a decimal
point, scaled by integral multipliers), so this represents the source's
floats exactly while keeping all arithmetic in Nat. -/
structure Dec where
  mant : Nat
  exp : Nat
deriving DecidableEq, Repr

/-- The rational value of an exact decimal. -/
def Dec.toRat (d : Dec) : Rat := (d.mant : Rat) / (10 : Rat) ^ d.exp

/-- Multiplication of an amount by an integral multiplier. -/
def Dec.scale (d : Dec) (k : Nat) : Dec := ⟨d.mant * k, d.exp⟩

/-- A recognized price. -/
structure Price where
  amount : Dec
  currency : String
deriving DecidableEq, Repr

def lookupS (l : List (String × String)) (k : String) : Option String :=
  (l.find? (fun p => p.1 = k)).map (fun p => p.2)

def lookupN (l : List (String × Nat)) (k : String) : Option Nat :=
  (l.find? (fun p => p.1 = k)).map (fun p => p.2)

def lookupSA (l : List (String × Nat × String)) (k : String) :
    Option (Nat × String) :=
  (l.find? (fun p => p.1 = k)).map (fun p => p.2)

def memKeysS (l : List (String × String)) (k : String) : Bool :=
  l.any (fun p => p.1 = k)

def memKeysN (l : List (String × Nat)) (k : String) : Bool :=
  l.any (fun p => p.1 = k)

/-- The numeric value of a digit string. -/
def digitsVal (cs : List Char) : Nat :=
  cs.foldl (fun n c => 10 * n + (c.toNat - '0'.toNat)) 0

/-- Python float() on the strings _normalize_amount hands it: an
integer part, optionally a dot and a fractional part, at least one
digit in total; none models a ValueError. -/
def parseFloat? (cs : List Char) : Option Dec :=
  let ds := cs.takeWhile (fun c => c ≠ '.')
  match cs.drop ds.length with
  | [] => if ds ≠ [] && ds.all isDigitC then some ⟨digitsVal ds, 0⟩ else none
  | _ :: fs =>
    if (ds ≠ [] || fs ≠ []) && ds.all isDigitC && fs.all isDigitC then
      some ⟨digitsVal ds * 10 ^ fs.length + digitsVal fs, fs.length⟩
    else none

/-- CurrencyRecognizer._normalize_amount: a comma followed by exactly
three characters (the tail of rpartition) is a thousands separator and
is removed; any other comma becomes a decimal point; then float(). -/
def normalizeAmount? (cs : List Char) : Option Dec :=
  if ',' ∈ cs then
    let tail := ((cs.reverse.takeWhile (fun c => c ≠ ',')).reverse : List Char)
    if tail.length = 3 then parseFloat? (cs.filter (fun c => c ≠ ','))
    else parseFloat? (cs.map (fun c => if c = ',' then '.' else c))
  else parseFloat? cs

/-- The multiplier value of an optional captured multiplier group:
MULTIPLIER_MAP.get(s, 1.0), or 1.0 when the group is absent. -/
def multVal (mo : Option (List Char)) : Nat :=
  match mo with
  | none => 1
  | some ms => (lookupN MULTIPLIER_MAP (String.mk ms)).getD 1

/-- The body of the match loop of CurrencyRecognizer.parse for one
match: none models an escaping exception, some none a match that emits
no price (continue), some (some p) an emitted price. -/
def assembleE (strict : Bool) (m : RawMatch) : Option (Option Price) :=
  match m with
  | .mA a mo c =>
    match normalizeAmount? a with
    | none => none
    | some amount =>
      let curr := String.mk c
      if strict && !(SYMBOLS.contains curr) then some none
      else
        let mult := multVal mo
        if memKeysN MULTIPLIER_MAP curr && !(memKeysS SLANG_MAP curr) then
          if IMPLIED_RUBLE_TOKENS.contains curr then
            some (some ⟨amount.scale (mult * (lookupN MULTIPLIER_MAP curr).getD 1),
              "RUB"⟩)
          else some none
        else
          match lookupS SLANG_MAP curr with
          | some code => some (some ⟨amount.scale mult, code⟩)
          | none => some none
  | .mB c a mo =>
    match normalizeAmount? a with
    | none => none
    | some amount =>
      let curr := String.mk c
      if strict && !(SYMBOLS.contains curr) then some none
      else
        match lookupS SLANG_MAP curr with
        | none => some none
        | some code => some (some ⟨amount.scale (multVal mo), code⟩)
  | .mC w =>
    if strict then some none
    else
      match lookupSA SLANG_AMOUNT_CURRENCY (String.mk w) with
      | some vc => some (some ⟨⟨vc.1, 0⟩, vc.2⟩)
      | none => some none

/-- The body of the digit-free fast path for one standalone-slang
match: note the source applies no strict-mode check here. -/
def assembleSlang (m : RawMatch) : Option Price :=
  match m with
  | .mC w => (lookupSA SLANG_AMOUNT_CURRENCY (String.mk w)).map
      (fun vc => ⟨⟨vc.1, 0⟩, vc.2⟩)
  | _ => none

/-- The match loop of CurrencyRecognizer.parse over the scanned
matches: an exception (none) aborts the whole call, a skipped match
contributes nothing, an emitted price is appended. -/
def runLoop (strict : Bool) : List (Nat × Nat × RawMatch) → Option (List Price)
  | [] => some []
  | t :: rest =>
    match assembleE strict t.2.2 with
    | none => none
    | some none => runLoop strict rest
    | some (some p) => (runLoop strict rest).map (fun l => p :: l)

/-- CurrencyRecognizer.parse / the module-level recognize: lowercase the
text; if it contains a digit, scan with COMBINED_PATTERN and run the
match loop (an exception in _normalize_amount makes the whole call
fail, hence the outer Option); otherwise scan only for standalone
slang — note the fast path applies no strict-mode check. -/
def recognize (text : String) (strict : Bool) : Option (List Price) :=
  let cs := text.toList.map pyLower
  if text.toList.any isDigitC then runLoop strict (scanRaw cs)
  else some ((scanSlangRaw cs).filterMap (fun t => assembleSlang t.2.2))

/-- View of a recognizer result with the amounts as rationals, for
stating the spec's expected values. -/
def resultView (r : Option (List Price)) : Option (List (Rat × String)) :=
  r.map (List.map (fun p => (p.amount.toRat, p.currency)))


/-! ### Trie lemmas -/

theorem find?_setChild_self (ch : List (Char × Trie)) (c : Char) (t : Trie) :
    (setChild ch c t).find? (fun p => p.1 = c) = some (c, t) := by
  induction ch with
  | nil =>
    simp only [setChild]
    rw [List.find?_cons_of_pos _ (by simp)]
  | cons p rest ih =>
    by_cases h : p.1 = c
    · simp only [setChild, if_pos h]
      rw [List.find?_cons_of_pos _ (by simp)]
    · simp only [setChild, if_neg h]
      rw [List.find?_cons_of_neg _ (by simpa using h), ih]

theorem find?_setChild_ne (ch : List (Char × Trie)) (c d : Char) (t : Trie)
    (h : d ≠ c) :
    (setChild ch c t).find? (fun p => p.1 = d) = ch.find? (fun p => p.1 = d) := by
  induction ch with
  | nil =>
    simp only [setChild]
    rw [List.find?_cons_of_neg _ (by simp [h.symm])]
  | cons p rest ih =>
    by_cases hpc : p.1 = c
    · simp only [setChild, if_pos hpc]
      rw [List.find?_cons_of_neg _ (by simp [h.symm]),
        List.find?_cons_of_neg _ (by simp [hpc, h.symm])]
    · simp only [setChild, if_neg hpc]
      by_cases hpd : p.1 = d
      · rw [List.find?_cons_of_pos _ (by simp [hpd]),
          List.find?_cons_of_pos _ (by simp [hpd])]
      · rw [List.find?_cons_of_neg _ (by simpa using hpd),
          List.find?_cons_of_neg _ (by simpa using hpd)]
        exact ih

theorem Trie.mem_empty (w : List Char) : (Trie.node false []).mem w = false := by
  cases w <;> simp [Trie.mem, List.find?]

theorem Trie.mem_insert (t : Trie) (v w : List Char) :
    (t.insert v).mem w = true ↔ w = v ∨ t.mem w = true := by
  induction v generalizing t w with
  | nil =>
    obtain ⟨e, ch⟩ := t
    cases w with
    | nil => simp [Trie.insert, Trie.mem]
    | cons c w' =>
      simp only [Trie.insert, Trie.mem]
      cases ch.find? (fun p => p.1 = c) <;> simp
  | cons c v' ih =>
    obtain ⟨e, ch⟩ := t
    cases w with
    | nil => simp [Trie.insert, Trie.mem]
    | cons d w' =>
      by_cases hdc : d = c
      · subst hdc
        simp only [Trie.insert, Trie.mem, find?_setChild_self]
        cases hf : ch.find? (fun p => p.1 = d) with
        | none => simp [hf, ih, Trie.mem_empty]
        | some p => simp [hf, ih]
      · simp only [Trie.insert, Trie.mem,
          find?_setChild_ne ch c d _ hdc]
        cases ch.find? (fun p => p.1 = d) <;> simp [hdc]

theorem Trie.mem_foldl (ws : List String) (t : Trie) (w : List Char) :
    (ws.foldl (fun t s => t.insert s.toList) t).mem w = true ↔
      (∃ s ∈ ws, s.toList = w) ∨ t.mem w = true := by
  induction ws generalizing t with
  | nil => simp
  | cons a rest ih =>
    simp only [List.foldl_cons, ih, Trie.mem_insert, List.mem_cons]
    constructor
    · rintro (⟨s, hs, hw⟩ | (h | h))
      · exact Or.inl ⟨s, Or.inr hs, hw⟩
      · exact Or.inl ⟨a, Or.inl rfl, h.symm⟩
      · exact Or.inr h
    · rintro (⟨s, rfl | hs, hw⟩ | h)
      · exact Or.inr (Or.inl hw.symm)
      · exact Or.inl ⟨s, hs, hw⟩
      · exact Or.inr (Or.inr h)

theorem Trie.mem_ofWords (ws : List String) (w : List Char) :
    (Trie.ofWords ws).mem w = true ↔ ∃ s ∈ ws, s.toList = w := by
  rw [Trie.ofWords, Trie.mem_foldl]
  simp [Trie.mem_empty]

theorem Trie.mem_of_mem_cands (t : Trie) (cs : List Char) (l : Nat)
    (h : l ∈ t.cands cs) : t.mem (cs.take l) = true := by
  induction cs generalizing t l with
  | nil =>
    obtain ⟨e, ch⟩ := t
    cases e with
    | false => simp [Trie.cands] at h
    | true =>
      simp only [Trie.cands] at h
      simp at h
      subst h
      simp [Trie.mem]
  | cons c rest ih =>
    obtain ⟨e, ch⟩ := t
    simp only [Trie.cands, List.mem_append] at h
    rcases h with h1 | h2
    · cases hf : ch.find? (fun p => p.1 = c) with
      | none => simp [hf] at h1
      | some p =>
        simp only [hf] at h1
        obtain ⟨l', hl', rfl⟩ := List.mem_map.mp h1
        simpa [List.take_succ_cons, Trie.mem, hf] using ih p.2 l' hl'
    · cases e with
      | false => simp at h2
      | true =>
        simp at h2
        subst h2
        simp [Trie.mem]

theorem Trie.mem_cands_of_take (t : Trie) (cs w : List Char)
    (hm : t.mem w = true) (hpre : cs.take w.length = w) :
    w.length ∈ t.cands cs := by
  induction w generalizing t cs with
  | nil =>
    obtain ⟨e, ch⟩ := t
    simp only [Trie.mem] at hm
    cases cs with
    | nil => simp [Trie.cands, hm]
    | cons c rest => simp [Trie.cands, hm]
  | cons c w' ih =>
    obtain ⟨e, ch⟩ := t
    cases cs with
    | nil => simp at hpre
    | cons d rest =>
      rw [List.length_cons, List.take_succ_cons] at hpre
      injection hpre with h1 h2
      subst h1
      simp only [Trie.mem] at hm
      cases hf : ch.find? (fun p => p.1 = d) with
      | none => simp [hf] at hm
      | some p =>
        simp only [hf] at hm
        simp only [Trie.cands, hf, List.mem_append, List.length_cons]
        exact Or.inl (List.mem_map.mpr ⟨w'.length, ih p.2 rest hm h2, rfl⟩)

theorem Trie.cands_sorted (t : Trie) (cs : List Char) :
    List.Pairwise (fun a b => b < a) (t.cands cs) := by
  induction cs generalizing t with
  | nil =>
    obtain ⟨e, ch⟩ := t
    cases e <;> simp [Trie.cands]
  | cons c rest ih =>
    obtain ⟨e, ch⟩ := t
    simp only [Trie.cands]
    apply List.pairwise_append.mpr
    refine ⟨?_, ?_, ?_⟩
    · cases hf : ch.find? (fun p => p.1 = c) with
      | none => simp
      | some p =>
        exact List.Pairwise.map _ (fun a b hab => by omega) (ih p.2)
    · cases e <;> simp
    · intro a ha b hb
      cases hf : ch.find? (fun p => p.1 = c) with
      | none => simp [hf] at ha
      | some p =>
        simp only [hf] at ha
        obtain ⟨a', _, rfl⟩ := List.mem_map.mp ha
        cases e with
        | false => simp at hb
        | true =>
          simp at hb
          omega

theorem Trie.le_head_of_mem_cands (t : Trie) (cs : List Char) (l : Nat)
    (h : l ∈ t.cands cs) :
    ∃ hd, (t.cands cs).head? = some hd ∧ l ≤ hd := by
  have hs := Trie.cands_sorted t cs
  cases hc : t.cands cs with
  | nil => rw [hc] at h; simp at h
  | cons a rest =>
    rw [hc] at h hs
    refine ⟨a, rfl, ?_⟩
    rcases List.mem_cons.mp h with rfl | hmem
    · exact le_refl _
    · exact le_of_lt ((List.pairwise_cons.mp hs).1 l hmem)

theorem Trie.one_le_of_mem_cands (t : Trie) (cs : List Char) (l : Nat)
    (h : l ∈ t.cands cs) (hr : t.rootEnd = false) : 1 ≤ l := by
  obtain ⟨e, ch⟩ := t
  simp only [Trie.rootEnd] at hr
  subst hr
  cases cs with
  | nil => simp [Trie.cands] at h
  | cons c rest =>
    simp only [Trie.cands] at h
    simp only [List.mem_append] at h
    rcases h with h1 | h2
    · cases hf : ch.find? (fun p => p.1 = c) with
      | none => simp [hf] at h1
      | some p =>
        simp only [hf] at h1
        obtain ⟨l', _, rfl⟩ := List.mem_map.mp h1
        omega
    · simp at h2

/-! ### Digit-string and amount-normalization lemmas -/

theorem ne_comma_of_digit (c : Char) (h : isDigitC c = true) : c ≠ ',' := by
  intro he
  subst he
  simp [isDigitC] at h

theorem ne_dot_of_digit (c : Char) (h : isDigitC c = true) : c ≠ '.' := by
  intro he
  subst he
  simp [isDigitC] at h

theorem all_ne_dot_of_digits (l : List Char) (h : l.all isDigitC = true) :
    l.all (fun c => c ≠ '.') = true := by
  rw [List.all_eq_true] at h ⊢
  intro c hc
  simpa using ne_dot_of_digit c (h c hc)

theorem all_ne_comma_of_digits (l : List Char) (h : l.all isDigitC = true) :
    l.all (fun c => c ≠ ',') = true := by
  rw [List.all_eq_true] at h ⊢
  intro c hc
  simpa using ne_comma_of_digit c (h c hc)

theorem takeWhile_all {p : Char → Bool} (l : List Char) (h : l.all p = true) :
    l.takeWhile p = l := by
  induction l with
  | nil => rfl
  | cons c rest ih =>
    simp only [List.all_cons, Bool.and_eq_true] at h
    simp [List.takeWhile_cons, h.1, ih h.2]

theorem takeWhile_append_sep {p : Char → Bool} (l1 l2 : List Char) (x : Char)
    (h1 : l1.all p = true) (hx : p x = false) :
    (l1 ++ x :: l2).takeWhile p = l1 := by
  induction l1 with
  | nil => simp [List.takeWhile_cons, hx]
  | cons c rest ih =>
    simp only [List.all_cons, Bool.and_eq_true] at h1
    simp [List.takeWhile_cons, h1.1, ih h1.2]

theorem length_takeWhile_le' {p : Char → Bool} (l : List Char) :
    (l.takeWhile p).length ≤ l.length := by
  induction l with
  | nil => simp
  | cons c rest ih =>
    cases hp : p c with
    | false => simp [List.takeWhile_cons, hp]
    | true =>
      simp only [List.takeWhile_cons, hp, if_true, List.length_cons]
      omega

theorem take_takeWhile_length {p : Char → Bool} (cs : List Char) :
    cs.take (cs.takeWhile p).length = cs.takeWhile p := by
  induction cs with
  | nil => rfl
  | cons c rest ih =>
    cases hp : p c <;> simp [List.takeWhile_cons, hp, ih]

theorem take_all_of_le_takeWhile {p : Char → Bool} (cs : List Char) (l : Nat)
    (h : l ≤ (cs.takeWhile p).length) : (cs.take l).all p = true := by
  induction cs generalizing l with
  | nil => simp
  | cons c rest ih =>
    cases hp : p c with
    | false => simp [List.takeWhile_cons, hp] at h; simp [h]
    | true =>
      cases l with
      | zero => simp
      | succ l' =>
        simp only [List.takeWhile_cons, hp, if_true, List.length_cons] at h
        simp [List.take_succ_cons, List.all_cons, hp, ih l' (by omega)]

theorem digitsVal_foldl_init (F : List Char) (init : Nat) :
    F.foldl (fun n c => 10 * n + (c.toNat - '0'.toNat)) init =
      init * 10 ^ F.length + digitsVal F := by
  induction F generalizing init with
  | nil => simp [digitsVal]
  | cons c rest ih =>
    simp only [List.foldl_cons, digitsVal, List.length_cons]
    rw [ih (10 * init + (c.toNat - '0'.toNat)), ih (10 * 0 + (c.toNat - '0'.toNat))]
    ring

theorem digitsVal_append (D F : List Char) :
    digitsVal (D ++ F) = digitsVal D * 10 ^ F.length + digitsVal F := by
  simp only [digitsVal, List.foldl_append]
  rw [digitsVal_foldl_init]
  rfl

theorem parseFloat?_digits (ds : List Char) (h1 : ds ≠ [])
    (h2 : ds.all isDigitC = true) : parseFloat? ds = some ⟨digitsVal ds, 0⟩ := by
  simp only [parseFloat?]
  rw [takeWhile_all ds (all_ne_dot_of_digits ds h2), List.drop_length]
  simp [h1, h2]

theorem parseFloat?_dot (D F : List Char) (hD : D.all isDigitC = true)
    (hF : F.all isDigitC = true) (hne : D ≠ [] ∨ F ≠ []) :
    parseFloat? (D ++ '.' :: F) =
      some ⟨digitsVal D * 10 ^ F.length + digitsVal F, F.length⟩ := by
  simp only [parseFloat?]
  rw [takeWhile_append_sep D F '.' (all_ne_dot_of_digits D hD) (by simp),
    List.drop_left]
  rcases hne with h | h <;> simp [hD, hF, h]

theorem map_comma_repl (l : List Char) (h : l.all isDigitC = true) :
    l.map (fun c => if c = ',' then '.' else c) = l := by
  induction l with
  | nil => rfl
  | cons c rest ih =>
    simp only [List.all_cons, Bool.and_eq_true] at h
    simp [List.map_cons, if_neg (ne_comma_of_digit c h.1), ih h.2]

theorem filter_ne_comma_of_digits (l : List Char) (h : l.all isDigitC = true) :
    l.filter (fun c => c ≠ ',') = l := by
  apply List.filter_eq_self.mpr
  intro a ha
  rw [List.all_eq_true] at h
  simpa using ne_comma_of_digit a (h a ha)

theorem no_comma_of_digits (l : List Char) (h : l.all isDigitC = true) :
    ',' ∉ l := by
  intro hm
  rw [List.all_eq_true] at h
  exact ne_comma_of_digit ',' (h ',' hm) rfl

theorem normalizeAmount?_digits (ds : List Char) (h1 : ds ≠ [])
    (h2 : ds.all isDigitC = true) :
    normalizeAmount? ds = some ⟨digitsVal ds, 0⟩ := by
  simp only [normalizeAmount?]
  rw [if_neg (no_comma_of_digits ds h2)]
  exact parseFloat?_digits ds h1 h2

theorem normalizeAmount?_dot (D F : List Char) (hD : D.all isDigitC = true)
    (hF : F.all isDigitC = true) (hne : D ≠ [] ∨ F ≠ []) :
    normalizeAmount? (D ++ '.' :: F) =
      some ⟨digitsVal D * 10 ^ F.length + digitsVal F, F.length⟩ := by
  simp only [normalizeAmount?]
  rw [if_neg (by
    simp only [List.mem_append, List.mem_cons]
    rintro (hm | hm | hm)
    · exact no_comma_of_digits D hD hm
    · exact absurd hm (by decide)
    · exact no_comma_of_digits F hF hm)]
  exact parseFloat?_dot D F hD hF hne

theorem comma_tail (D F : List Char) (hF : F.all isDigitC = true) :
    (((D ++ ',' :: F).reverse.takeWhile (fun c => c ≠ ',')).reverse) = F := by
  rw [List.reverse_append, List.reverse_cons, List.append_assoc,
    List.singleton_append,
    takeWhile_append_sep F.reverse D.reverse ','
      (by rw [List.all_reverse]; exact all_ne_comma_of_digits F hF) (by simp),
    List.reverse_reverse]

theorem normalizeAmount?_comma_thousands (D F : List Char)
    (hD : D.all isDigitC = true) (hF : F.all isDigitC = true)
    (hDne : D ≠ []) (h3 : F.length = 3) :
    normalizeAmount? (D ++ ',' :: F) = some ⟨digitsVal (D ++ F), 0⟩ := by
  simp only [normalizeAmount?]
  rw [if_pos (by simp), comma_tail D F hF, if_pos h3, List.filter_append,
    List.filter_cons_of_neg (by simp), filter_ne_comma_of_digits D hD,
    filter_ne_comma_of_digits F hF]
  exact parseFloat?_digits (D ++ F) (by simp [hDne]) (by simp [List.all_append, hD, hF])

theorem normalizeAmount?_comma_decimal (D F : List Char)
    (hD : D.all isDigitC = true) (hF : F.all isDigitC = true)
    (hne : D ≠ [] ∨ F ≠ []) (h3 : F.length ≠ 3) :
    normalizeAmount? (D ++ ',' :: F) =
      some ⟨digitsVal D * 10 ^ F.length + digitsVal F, F.length⟩ := by
  simp only [normalizeAmount?]
  rw [if_pos (by simp), comma_tail D F hF, if_neg h3, List.map_append,
    List.map_cons, if_pos rfl, map_comma_repl D hD, map_comma_repl F hF]
  exact parseFloat?_dot D F hD hF hne

/-! ### Amount-candidate lemmas -/

theorem digitRun_eq (cs : List Char) :
    digitRun cs = (cs.takeWhile isDigitC).length := rfl

theorem digitRun_le_length (cs : List Char) : digitRun cs ≤ cs.length := by
  rw [digitRun_eq]
  exact length_takeWhile_le' cs

theorem take_ne_nil_of_le (cs : List Char) (l : Nat) (h1 : 1 ≤ l)
    (h2 : l ≤ cs.length) : cs.take l ≠ [] := by
  intro he
  have hl := congrArg List.length he
  simp only [List.length_take, List.length_nil] at hl
  omega

theorem amountCands_cases (cs : List Char) (l : Nat) (h : l ∈ amountCands cs) :
    (1 ≤ l ∧ l ≤ digitRun cs) ∨
    (∃ c rest j, cs.drop (digitRun cs) = c :: rest ∧ (c = '.' ∨ c = ',') ∧
      1 ≤ j ∧ j ≤ digitRun rest ∧ l = digitRun cs + 1 + j ∧ 1 ≤ digitRun cs) := by
  simp only [amountCands] at h
  by_cases hn : digitRun cs = 0
  · simp [hn] at h
  · rw [if_neg hn] at h
    rcases List.mem_append.mp h with h1 | h2
    · right
      cases hd : cs.drop (digitRun cs) with
      | nil => simp [hd] at h1
      | cons c rest =>
        simp only [hd] at h1
        by_cases hsep : (c = '.' || c = ',') = true
        · rw [if_pos hsep] at h1
          obtain ⟨i, hi, rfl⟩ := List.mem_map.mp h1
          simp only [List.mem_range] at hi
          exact ⟨c, rest, digitRun rest - i, rfl, by simpa using hsep,
            by omega, by omega, by omega, by omega⟩
        · rw [if_neg hsep] at h1
          simp at h1
    · left
      obtain ⟨i, hi, rfl⟩ := List.mem_map.mp h2
      simp only [List.mem_range] at hi
      omega

theorem amountCands_pos (cs : List Char) (l : Nat) (h : l ∈ amountCands cs) :
    1 ≤ l := by
  rcases amountCands_cases cs l h with ⟨h1, _⟩ | ⟨_, _, _, _, _, _, _, rfl, _⟩
  · exact h1
  · omega

theorem take_digits_norm (cs : List Char) (l : Nat) (h1 : 1 ≤ l)
    (h2 : l ≤ digitRun cs) : (normalizeAmount? (cs.take l)).isSome = true := by
  have hall : (cs.take l).all isDigitC = true :=
    take_all_of_le_takeWhile cs l (by rw [← digitRun_eq]; exact h2)
  have hne : cs.take l ≠ [] :=
    take_ne_nil_of_le cs l h1 (le_trans h2 (digitRun_le_length cs))
  rw [normalizeAmount?_digits _ hne hall]
  rfl

theorem normalizeAmount?_isSome_of_amountCands (cs : List Char) (l : Nat)
    (h : l ∈ amountCands cs) : (normalizeAmount? (cs.take l)).isSome = true := by
  rcases amountCands_cases cs l h with ⟨h1, h2⟩ |
    ⟨c, rest, j, hd, hsep, hj1, hj2, rfl, hn⟩
  · exact take_digits_norm cs l h1 h2
  · have hsplit : cs.take (digitRun cs + 1 + j) =
        cs.take (digitRun cs) ++ c :: rest.take j := by
      have e1 : digitRun cs + 1 + j = digitRun cs + (j + 1) := by omega
      rw [e1, List.take_add cs (digitRun cs) (j + 1), hd, List.take_succ_cons]
    rw [hsplit]
    have hD : (cs.take (digitRun cs)).all isDigitC = true :=
      take_all_of_le_takeWhile cs (digitRun cs) (by rw [← digitRun_eq])
    have hDne : cs.take (digitRun cs) ≠ [] :=
      take_ne_nil_of_le cs (digitRun cs) hn (digitRun_le_length cs)
    have hF : (rest.take j).all isDigitC = true :=
      take_all_of_le_takeWhile rest j (by rw [← digitRun_eq]; exact hj2)
    have hFne : rest.take j ≠ [] :=
      take_ne_nil_of_le rest j hj1 (le_trans hj2 (digitRun_le_length rest))
    rcases hsep with rfl | rfl
    · rw [normalizeAmount?_dot _ _ hD hF (Or.inl hDne)]
      rfl
    · by_cases h3 : (rest.take j).length = 3
      · rw [normalizeAmount?_comma_thousands _ _ hD hF hDne h3]
        rfl
      · rw [normalizeAmount?_comma_decimal _ _ hD hF (Or.inl hDne) h3]
        rfl

/-! ### Match-attempt lemmas -/

theorem mem_of_head?_nat (l : List Nat) (a : Nat) (h : l.head? = some a) :
    a ∈ l := by
  cases l with
  | nil => simp at h
  | cons b rest =>
    simp only [List.head?_cons, Option.some.injEq] at h
    subst h
    exact List.mem_cons_self b rest

theorem tryAlt1_spec (cs : List Char) (len : Nat) (m : RawMatch)
    (h : tryAlt1 cs = some (len, m)) :
    ∃ aLen mo' c', aLen ∈ amountCands cs ∧
      m = RawMatch.mA (cs.take aLen) mo' c' ∧ 1 ≤ len := by
  simp only [tryAlt1] at h
  obtain ⟨aLen, haL, h1⟩ := List.exists_of_findSome?_eq_some h
  obtain ⟨w1, _, h2⟩ := List.exists_of_findSome?_eq_some h1
  obtain ⟨mo, _, h3⟩ := List.exists_of_findSome?_eq_some h2
  obtain ⟨w2, _, h4⟩ := List.exists_of_findSome?_eq_some h3
  cases hc : (currCands ((((cs.drop aLen).drop w1).drop (mo.getD 0)).drop w2)).head? with
  | none => rw [hc] at h4; exact absurd h4 (by simp)
  | some cLen =>
    rw [hc] at h4
    rw [Option.some.injEq, Prod.mk.injEq] at h4
    refine ⟨aLen, _, _, haL, h4.2.symm, ?_⟩
    have := amountCands_pos cs aLen haL
    omega

theorem tryAlt2_spec (cs : List Char) (len : Nat) (m : RawMatch)
    (h : tryAlt2 cs = some (len, m)) :
    ∃ cs2 aLen mo' c', aLen ∈ amountCands cs2 ∧
      m = RawMatch.mB c' (cs2.take aLen) mo' ∧ 1 ≤ len := by
  simp only [tryAlt2] at h
  obtain ⟨cLen, _, h1⟩ := List.exists_of_findSome?_eq_some h
  obtain ⟨w1, _, h2⟩ := List.exists_of_findSome?_eq_some h1
  cases ha : (amountCands ((cs.drop cLen).drop w1)).head? with
  | none => rw [ha] at h2; exact absurd h2 (by simp)
  | some aLen =>
    rw [ha] at h2
    rw [Option.some.injEq, Prod.mk.injEq] at h2
    refine ⟨(cs.drop cLen).drop w1, aLen, _, _,
      mem_of_head?_nat _ _ ha, h2.2.symm, ?_⟩
    have := amountCands_pos _ aLen (mem_of_head?_nat _ _ ha)
    omega

theorem tryAlt3_spec (cs : List Char) (pos len : Nat) (m : RawMatch)
    (h : tryAlt3 cs pos = some (len, m)) :
    (∃ w', m = RawMatch.mC w') ∧ 1 ≤ len := by
  simp only [tryAlt3] at h
  cases hnd : noDigitBefore cs pos with
  | false => rw [hnd] at h; simp at h
  | true =>
    rw [hnd] at h
    simp only [if_true] at h
    obtain ⟨w, _, h1⟩ := List.exists_of_findSome?_eq_some h
    cases hnds : noDigitSpaceBefore cs (pos + w) with
    | false => rw [hnds] at h1; simp at h1
    | true =>
      rw [hnds] at h1
      simp only [if_true] at h1
      obtain ⟨sLen, hsl, h2⟩ := List.exists_of_findSome?_eq_some h1
      have hpos : 1 ≤ sLen :=
        Trie.one_le_of_mem_cands slangTrie _ sLen hsl (by decide)
      cases hb : ((cs[pos + w + sLen]?).all (fun c => !isWordC c)) with
      | false => rw [hb] at h2; simp at h2
      | true =>
        rw [hb] at h2
        simp only [if_true, Option.some.injEq, Prod.mk.injEq] at h2
        exact ⟨⟨_, h2.2.symm⟩, by omega⟩

theorem tryAt_lt (cs : List Char) (pos e : Nat) (m : RawMatch)
    (h : tryAt cs pos = some (e, m)) : pos < e := by
  unfold tryAt at h
  cases h1 : tryAlt1 (cs.drop pos) with
  | some q =>
    obtain ⟨len, m'⟩ := q
    simp only [h1, Option.some.injEq, Prod.mk.injEq] at h
    obtain ⟨_, _, _, _, _, hlen⟩ := tryAlt1_spec _ _ _ h1
    omega
  | none =>
    rw [h1] at h
    cases h2 : tryAlt2 (cs.drop pos) with
    | some q =>
      obtain ⟨len, m'⟩ := q
      simp only [h2, Option.some.injEq, Prod.mk.injEq] at h
      obtain ⟨_, _, _, _, _, _, hlen⟩ := tryAlt2_spec _ _ _ h2
      omega
    | none =>
      rw [h2] at h
      cases h3 : tryAlt3 cs pos with
      | some q =>
        obtain ⟨len, m'⟩ := q
        simp only [h3, Option.some.injEq, Prod.mk.injEq] at h
        obtain ⟨_, hlen⟩ := tryAlt3_spec _ _ _ _ h3
        omega
      | none => rw [h3] at h; simp at h

theorem tryAtSlang_lt (cs : List Char) (pos e : Nat) (m : RawMatch)
    (h : tryAtSlang cs pos = some (e, m)) : pos < e := by
  unfold tryAtSlang at h
  cases h3 : tryAlt3 cs pos with
  | some q =>
    obtain ⟨len, m'⟩ := q
    simp only [h3, Option.some.injEq, Prod.mk.injEq] at h
    obtain ⟨_, hlen⟩ := tryAlt3_spec _ _ _ _ h3
    omega
  | none => rw [h3] at h; simp at h

/-! ### Scan lemmas -/

theorem scanAux_mem_step (step : List Char → Nat → Option (Nat × RawMatch))
    (cs : List Char) (f pos : Nat) (x : Nat × Nat × RawMatch)
    (hx : x ∈ scanAux step cs f pos) :
    step cs x.1 = some (x.2.1, x.2.2) ∧ pos ≤ x.1 := by
  induction f generalizing pos with
  | zero => simp [scanAux] at hx
  | succ f ih =>
    simp only [scanAux] at hx
    by_cases hp : pos > cs.length
    · rw [if_pos hp] at hx
      simp at hx
    · rw [if_neg hp] at hx
      cases hs : step cs pos with
      | none => 
        rw [hs] at hx
        obtain ⟨h1, h2⟩ := ih _ hx
        exact ⟨h1, by omega⟩
      | some q =>
        obtain ⟨e, m⟩ := q
        rw [hs] at hx
        rcases List.mem_cons.mp hx with rfl | hx'
        · exact ⟨hs, le_refl _⟩
        · obtain ⟨h1, h2⟩ := ih _ hx'
          refine ⟨h1, ?_⟩
          have := le_trans (le_max_right e (pos + 1)) h2
          omega

theorem scanAux_pairwise (step : List Char → Nat → Option (Nat × RawMatch))
    (cs : List Char) (f pos : Nat) :
    List.Pairwise (fun a b => a.2.1 ≤ b.1) (scanAux step cs f pos) := by
  induction f generalizing pos with
  | zero => simp [scanAux]
  | succ f ih =>
    simp only [scanAux]
    by_cases hp : pos > cs.length
    · rw [if_pos hp]
      simp
    · rw [if_neg hp]
      cases hs : step cs pos with
      | none => exact ih _
      | some q =>
        obtain ⟨e, m⟩ := q
        refine List.pairwise_cons.mpr ⟨?_, ih _⟩
        intro b hb
        have h2 := (scanAux_mem_step step cs f _ b hb).2
        exact le_trans (le_max_left e (pos + 1)) h2

theorem scanAux_lt (step : List Char → Nat → Option (Nat × RawMatch))
    (cs : List Char)
    (hstep : ∀ p e m, step cs p = some (e, m) → p < e) (f pos : Nat)
    (x : Nat × Nat × RawMatch) (hx : x ∈ scanAux step cs f pos) :
    x.1 < x.2.1 := by
  have h := (scanAux_mem_step step cs f pos x hx).1
  exact hstep x.1 x.2.1 x.2.2 h

/-! ### Assembler lemmas -/

theorem Dec.toRat_nonneg (d : Dec) : 0 ≤ d.toRat := by
  unfold Dec.toRat
  positivity

theorem assembleE_isSome_mA (strict : Bool) (a : List Char)
    (mo : Option (List Char)) (c : List Char)
    (h : (normalizeAmount? a).isSome = true) :
    (assembleE strict (.mA a mo c)).isSome = true := by
  rw [Option.isSome_iff_exists] at h
  obtain ⟨v, hv⟩ := h
  simp only [assembleE, hv]
  split
  · simp
  · split
    · split
      · simp
      · simp
    · cases lookupS SLANG_MAP (String.mk c) <;> simp

theorem assembleE_isSome_mB (strict : Bool) (a : List Char)
    (mo : Option (List Char)) (c : List Char)
    (h : (normalizeAmount? a).isSome = true) :
    (assembleE strict (.mB c a mo)).isSome = true := by
  rw [Option.isSome_iff_exists] at h
  obtain ⟨v, hv⟩ := h
  simp only [assembleE, hv]
  split
  · simp
  · cases lookupS SLANG_MAP (String.mk c) <;> simp

theorem assembleE_isSome_mC (strict : Bool) (w : List Char) :
    (assembleE strict (.mC w)).isSome = true := by
  simp only [assembleE]
  split
  · simp
  · cases lookupSA SLANG_AMOUNT_CURRENCY (String.mk w) <;> simp

theorem assembleE_isSome_of_tryAt (cs : List Char) (pos e : Nat)
    (m : RawMatch) (strict : Bool) (h : tryAt cs pos = some (e, m)) :
    (assembleE strict m).isSome = true := by
  unfold tryAt at h
  cases h1 : tryAlt1 (cs.drop pos) with
  | some q =>
    obtain ⟨len, m'⟩ := q
    simp only [h1, Option.some.injEq, Prod.mk.injEq] at h
    obtain ⟨aLen, mo', c', haL, hm, _⟩ := tryAlt1_spec _ _ _ h1
    rw [← h.2, hm]
    exact assembleE_isSome_mA strict _ mo' c'
      (normalizeAmount?_isSome_of_amountCands _ aLen haL)
  | none =>
    rw [h1] at h
    cases h2 : tryAlt2 (cs.drop pos) with
    | some q =>
      obtain ⟨len, m'⟩ := q
      simp only [h2, Option.some.injEq, Prod.mk.injEq] at h
      obtain ⟨cs2, aLen, mo', c', haL, hm, _⟩ := tryAlt2_spec _ _ _ h2
      rw [← h.2, hm]
      exact assembleE_isSome_mB strict _ mo' c'
        (normalizeAmount?_isSome_of_amountCands cs2 aLen haL)
    | none =>
      rw [h2] at h
      cases h3 : tryAlt3 cs pos with
      | some q =>
        obtain ⟨len, m'⟩ := q
        simp only [h3, Option.some.injEq, Prod.mk.injEq] at h
        obtain ⟨⟨w', hw'⟩, _⟩ := tryAlt3_spec _ _ _ _ h3
        rw [← h.2, hw']
        exact assembleE_isSome_mC strict w'
      | none => rw [h3] at h; simp at h

theorem runLoop_isSome (strict : Bool) (l : List (Nat × Nat × RawMatch))
    (h : ∀ t ∈ l, (assembleE strict t.2.2).isSome = true) :
    (runLoop strict l).isSome = true := by
  induction l with
  | nil => simp [runLoop]
  | cons t rest ih =>
    simp only [runLoop]
    cases ha : assembleE strict t.2.2 with
    | none =>
      have := h t (List.mem_cons_self t rest)
      rw [ha] at this
      simp at this
    | some o =>
      cases o with
      | none => exact ih (fun x hx => h x (List.mem_cons_of_mem t hx))
      | some p =>
        show (Option.map (fun l => p :: l) (runLoop strict rest)).isSome = true
        have hrest := ih (fun x hx => h x (List.mem_cons_of_mem t hx))
        cases hr : runLoop strict rest with
        | none => rw [hr] at hrest; simp at hrest
        | some res => simp [hr]

theorem runLoop_mem (strict : Bool) (l : List (Nat × Nat × RawMatch))
    (res : List Price) (p : Price) (h : runLoop strict l = some res)
    (hp : p ∈ res) :
    ∃ t ∈ l, assembleE strict t.2.2 = some (some p) := by
  induction l generalizing res with
  | nil =>
    simp only [runLoop, Option.some.injEq] at h
    subst h
    simp at hp
  | cons t rest ih =>
    simp only [runLoop] at h
    cases ha : assembleE strict t.2.2 with
    | none => rw [ha] at h; simp at h
    | some o =>
      cases o with
      | none =>
        rw [ha] at h
        obtain ⟨t', ht', h2⟩ := ih res h hp
        exact ⟨t', List.mem_cons_of_mem t ht', h2⟩
      | some q =>
        rw [ha] at h
        cases hr : runLoop strict rest with
        | none => rw [hr] at h; simp at h
        | some res' =>
          rw [hr] at h
          simp only [Option.map_some', Option.some.injEq] at h
          subst h
          rcases List.mem_cons.mp hp with rfl | hp'
          · exact ⟨t, List.mem_cons_self t rest, ha⟩
          · obtain ⟨t', ht', h2⟩ := ih res' hr hp'
            exact ⟨t', List.mem_cons_of_mem t ht', h2⟩

/-! ### Claim theorems -/

/-- C1 (code vs. spec/tests): the spec and the repository's own test
suite require `"1 000 000 рублей"` to be recognized as 1,000,000 RUB
after removing the grouping spaces, but the capture group of
COMBINED_PATTERN is `\d+(?:[.,]\d+)?`, which cannot cross a space, and
_normalize_amount never strips spaces; evaluating the embedded code at
the spec's example shows that only the final digit group "000" is
matched (before "рублей"), yielding amount 0 instead of 1,000,000. -/
theorem C1_space_grouped_thousands_eval :
    resultView (recognize "1 000 000 рублей" false) = some [(0, "RUB")] := by
  have h : recognize "1 000 000 рублей" false = some [⟨⟨0, 0⟩, "RUB"⟩] := by
    decide
  simp [resultView, h, Dec.toRat]

/-- C2 (code vs. spec): strict mode is documented to disable
Production C, and the main match loop indeed drops every standalone
slang match when strict (first conjunct); but the digit-free fast path
of parse appends standalone-slang prices without any strict-mode check,
so `recognize "косарь" strict` returns the slang price instead of the
empty list (second conjunct). -/
theorem C2_strict_standalone_slang_eval :
    (∀ w : List Char, assembleE true (.mC w) = some none) ∧
    resultView (recognize "косарь" true) = some [(1000, "RUB")] := by
  constructor
  · intro w
    simp [assembleE]
  · have h : recognize "косарь" true = some [⟨⟨1000, 0⟩, "RUB"⟩] := by decide
    simp [resultView, h, Dec.toRat]

/-- C3: the currency slot of every production is matched by the
trie-built whitelist alternation, so any token it accepts is literally
one of the dictionary words of `_CURRENCY_TOKENS` (third conjunct);
out-of-dictionary words such as "RTX" or "ГБ" therefore never produce a
price (first two conjuncts). -/
theorem C3_currency_whitelist :
    resultView (recognize "5060 RTX" false) = some [] ∧
    resultView (recognize "16 ГБ" false) = some [] ∧
    ∀ (cs : List Char) (l : Nat), l ∈ currCands cs →
      ∃ w ∈ CURRENCY_TOKENS, w.toList = cs.take l := by
  refine ⟨?_, ?_, ?_⟩
  · have h : recognize "5060 RTX" false = some [] := by decide
    simp [resultView, h]
  · have h : recognize "16 ГБ" false = some [] := by decide
    simp [resultView, h]
  · intro cs l hl
    have hm := Trie.mem_of_mem_cands currencyTrie cs l hl
    exact (Trie.mem_ofWords CURRENCY_TOKENS (cs.take l)).mp hm

/-- C3 witness: the hypothesis is satisfiable — 3 is a candidate length
of the currency alternation on "rub 1", and the matched prefix "rub" is
a dictionary word. -/
theorem C3_currency_whitelist_witness :
    ∃ w ∈ CURRENCY_TOKENS, w.toList = ("rub 1".toList).take 3 :=
  C3_currency_whitelist.2.2 "rub 1".toList 3 (by decide)

/-- C4: in Production A, when the currency slot holds an
ImpliedCurrencyTokens member, its scale factor multiplies into the
already-captured multiplier (never overwrites) and the currency
defaults to RUB (first conjunct); hence
`recognize "10k косарей"` = 10 × 1000 × 1000 RUB (second conjunct). -/
theorem C4_implied_token_multiplies :
    (∀ (a : List Char) (mo : Option (List Char)) (c : List Char) (v : Dec),
      normalizeAmount? a = some v →
      String.mk c ∈ IMPLIED_RUBLE_TOKENS →
      assembleE false (.mA a mo c) =
        some (some ⟨v.scale (multVal mo *
          (lookupN MULTIPLIER_MAP (String.mk c)).getD 1), "RUB"⟩)) ∧
    resultView (recognize "10k косарей" false) = some [(10000000, "RUB")] := by
  constructor
  · intro a mo c v hv hc
    simp only [assembleE, hv]
    rw [if_neg (by simp)]
    generalize String.mk c = k at hc ⊢
    simp only [IMPLIED_RUBLE_TOKENS, List.mem_cons, List.not_mem_nil,
      or_false] at hc
    rcases hc with rfl | rfl | rfl | rfl | rfl | rfl <;>
      rw [if_pos (by decide), if_pos (by decide)]
  · have h : recognize "10k косарей" false = some [⟨⟨10000000, 0⟩, "RUB"⟩] := by
      decide
    simp [resultView, h, Dec.toRat]

/-- C4 witness: instantiated at the spec's example "10k косарей":
amount "10", multiplier slot "k", currency slot "косарей". -/
theorem C4_implied_token_multiplies_witness :
    assembleE false (.mA "10".toList (some "k".toList) "косарей".toList) =
      some (some ⟨(Dec.mk 10 0).scale (multVal (some "k".toList) *
        (lookupN MULTIPLIER_MAP (String.mk "косарей".toList)).getD 1),
        "RUB"⟩) :=
  C4_implied_token_multiplies.1 "10".toList (some "k".toList)
    "косарей".toList ⟨10, 0⟩ (by decide) (by decide)

/-- C5: comma/dot disambiguation of _normalize_amount on captured
numeric literals (integer digits, one separator, fractional digits): a
comma followed by exactly 3 digits is a thousands separator and is
removed; any other digit count makes it a decimal point; a literal dot
is always a decimal point; together with the spec's numeric examples. -/
theorem C5_separator_disambiguation :
    (∀ (D F : List Char), D.all isDigitC = true → F.all isDigitC = true →
      D ≠ [] → F ≠ [] →
      (F.length = 3 →
        normalizeAmount? (D ++ ',' :: F) = some ⟨digitsVal (D ++ F), 0⟩) ∧
      (F.length ≠ 3 →
        normalizeAmount? (D ++ ',' :: F) =
          some ⟨digitsVal D * 10 ^ F.length + digitsVal F, F.length⟩) ∧
      normalizeAmount? (D ++ '.' :: F) =
        some ⟨digitsVal D * 10 ^ F.length + digitsVal F, F.length⟩) ∧
    (normalizeAmount? "1,000".toList).map Dec.toRat = some 1000 ∧
    (normalizeAmount? "10,500".toList).map Dec.toRat = some 10500 ∧
    (normalizeAmount? "1,5".toList).map Dec.toRat = some (3 / 2) ∧
    (normalizeAmount? "1,23".toList).map Dec.toRat = some (123 / 100) ∧
    (normalizeAmount? "1,2345".toList).map Dec.toRat =
      some (12345 / 10000) := by
  refine ⟨?_, ?_, ?_, ?_, ?_, ?_⟩
  · intro D F hD hF hDne hFne
    exact ⟨fun h3 => normalizeAmount?_comma_thousands D F hD hF hDne h3,
      fun h3 => normalizeAmount?_comma_decimal D F hD hF (Or.inl hDne) h3,
      normalizeAmount?_dot D F hD hF (Or.inl hDne)⟩
  · have h : normalizeAmount? "1,000".toList = some ⟨1000, 0⟩ := by decide
    rw [h]
    simp [Dec.toRat]
  · have h : normalizeAmount? "10,500".toList = some ⟨10500, 0⟩ := by decide
    rw [h]
    simp [Dec.toRat]
  · have h : normalizeAmount? "1,5".toList = some ⟨15, 1⟩ := by decide
    rw [h]
    simp [Dec.toRat]
    norm_num
  · have h : normalizeAmount? "1,23".toList = some ⟨123, 2⟩ := by decide
    rw [h]
    simp [Dec.toRat]
    norm_num
  · have h : normalizeAmount? "1,2345".toList = some ⟨12345, 4⟩ := by decide
    rw [h]
    simp [Dec.toRat]
    norm_num

/-- C5 witness: instantiated at "1,000" (D = "1", F = "000", three
digits after the comma, thousands case). -/
theorem C5_separator_disambiguation_witness :
    normalizeAmount? ("1".toList ++ ',' :: "000".toList) =
      some ⟨digitsVal ("1".toList ++ "000".toList), 0⟩ :=
  (C5_separator_disambiguation.1 "1".toList "000".toList (by decide)
    (by decide) (by decide) (by decide)).1 (by decide)

/-- C6: the spans of the matches produced by the single left-to-right
scan are pairwise disjoint and ordered by start position — every match
ends no later than any later match starts, and every span is non-empty
— for both the combined scan and the standalone-slang scan; together
with the spec's two non-overlap examples. -/
theorem C6_non_overlap_ordered :
    (∀ text : String,
      List.Pairwise (fun a b => a.2.1 ≤ b.1)
        (scanRaw (text.toList.map pyLower)) ∧
      (∀ x ∈ scanRaw (text.toList.map pyLower), x.1 < x.2.1) ∧
      List.Pairwise (fun a b => a.2.1 ≤ b.1)
        (scanSlangRaw (text.toList.map pyLower)) ∧
      (∀ x ∈ scanSlangRaw (text.toList.map pyLower), x.1 < x.2.1)) ∧
    resultView (recognize "100 rub 200" false) = some [(100, "RUB")] ∧
    resultView (recognize "100 rub 200 usd" false) =
      some [(100, "RUB"), (200, "USD")] := by
  refine ⟨fun text => ⟨?_, ?_, ?_, ?_⟩, ?_, ?_⟩
  · exact scanAux_pairwise tryAt _ _ _
  · intro x hx
    exact scanAux_lt tryAt _ (fun p e m h => tryAt_lt _ p e m h) _ _ x hx
  · exact scanAux_pairwise tryAtSlang _ _ _
  · intro x hx
    exact scanAux_lt tryAtSlang _ (fun p e m h => tryAtSlang_lt _ p e m h)
      _ _ x hx
  · have h : recognize "100 rub 200" false = some [⟨⟨100, 0⟩, "RUB"⟩] := by
      decide
    simp [resultView, h, Dec.toRat]
  · have h : recognize "100 rub 200 usd" false =
        some [⟨⟨100, 0⟩, "RUB"⟩, ⟨⟨200, 0⟩, "USD"⟩] := by decide
    simp [resultView, h, Dec.toRat]

/-- C6 witness: the first match of "100 rub 200 usd" spans [0, 7) — a
non-empty span, instantiating the span-positivity hypothesis. -/
theorem C6_non_overlap_ordered_witness : (0 : Nat) < 7 :=
  (C6_non_overlap_ordered.1 "100 rub 200 usd").2.1
    (0, 7, RawMatch.mA "100".toList none "rub".toList) (by decide)

/-- C7: in strict mode Productions A and B emit a price only when the
currency slot holds one of the symbolic glyphs of SYMBOLS (first two
conjuncts); hence "100 USD" yields nothing in strict mode while "$100"
yields 100 USD. -/
theorem C7_strict_mode_symbols_only :
    (∀ (a c : List Char) (mo : Option (List Char)) (p : Price),
      assembleE true (.mA a mo c) = some (some p) →
      String.mk c ∈ SYMBOLS) ∧
    (∀ (a c : List Char) (mo : Option (List Char)) (p : Price),
      assembleE true (.mB c a mo) = some (some p) →
      String.mk c ∈ SYMBOLS) ∧
    resultView (recognize "100 USD" true) = some [] ∧
    resultView (recognize "$100" true) = some [(100, "USD")] := by
  refine ⟨?_, ?_, ?_, ?_⟩
  · intro a c mo p h
    cases hv : normalizeAmount? a with
    | none => simp [assembleE, hv] at h
    | some v =>
      by_cases hc : String.mk c ∈ SYMBOLS
      · exact hc
      · simp [assembleE, hv, hc] at h
  · intro a c mo p h
    cases hv : normalizeAmount? a with
    | none => simp [assembleE, hv] at h
    | some v =>
      by_cases hc : String.mk c ∈ SYMBOLS
      · exact hc
      · simp [assembleE, hv, hc] at h
  · have h : recognize "100 USD" true = some [] := by decide
    simp [resultView, h]
  · have h : recognize "$100" true = some [⟨⟨100, 0⟩, "USD"⟩] := by decide
    simp [resultView, h, Dec.toRat]

/-- C7 witness: instantiated at the accepted strict-mode match
"$" + "100" of Production B. -/
theorem C7_strict_mode_symbols_only_witness :
    String.mk "$".toList ∈ SYMBOLS :=
  C7_strict_mode_symbols_only.2.1 "100".toList "$".toList none
    ⟨⟨100, 0⟩, "USD"⟩ (by decide)

/-- C8: recognize is total — for every input string and mode the
embedded parse (whose none models a Python exception, in particular a
float() failure in _normalize_amount) returns some list: every numeric
literal captured by the scan normalizes successfully. -/
theorem C8_recognize_total (text : String) (strict : Bool) :
    (recognize text strict).isSome = true := by
  unfold recognize
  by_cases hd : text.toList.any isDigitC = true
  · rw [if_pos hd]
    apply runLoop_isSome
    intro t ht
    simp only [scanRaw] at ht
    have hs := scanAux_mem_step tryAt _ _ _ t ht
    exact assembleE_isSome_of_tryAt _ t.1 t.2.1 t.2.2 strict hs.1
  · rw [if_neg hd]
    simp

/-- C9: the trie-built alternation always prefers the longest
dictionary token matching at a position: any matching word bounds from
below the head of the candidate list (first conjunct); concretely, on
"тысяча" the word-multiplier alternation offers 6 ("тысяча") before 5
("тысяч"). -/
theorem C9_trie_longest_match :
    (∀ (ws : List String) (cs : List Char) (w : String), w ∈ ws →
      cs.take w.toList.length = w.toList →
      ∃ hd, ((Trie.ofWords ws).cands cs).head? = some hd ∧
        w.toList.length ≤ hd) ∧
    wordMultTrie.cands "тысяча".toList = [6, 5] := by
  constructor
  · intro ws cs w hw hpre
    have hm : (Trie.ofWords ws).mem w.toList = true :=
      (Trie.mem_ofWords ws w.toList).mpr ⟨w, hw, rfl⟩
    exact Trie.le_head_of_mem_cands _ cs _
      (Trie.mem_cands_of_take _ cs _ hm hpre)
  · decide

/-- C9 witness: "тысяч" (5 letters) matches at the start of "тысяча",
and the head of the candidate list is at least as long. -/
theorem C9_trie_longest_match_witness :
    ∃ hd, ((Trie.ofWords WORD_MULTIPLIERS).cands "тысяча".toList).head? =
      some hd ∧ ("тысяч" : String).toList.length ≤ hd :=
  C9_trie_longest_match.1 WORD_MULTIPLIERS "тысяча".toList "тысяч"
    (by decide) (by decide)

/-- C10: every price recognize returns has a nonnegative amount — the
capture grammar admits no sign, so every amount is a scaled digit
string with a Nat mantissa — and amount exactly 0 is reachable, e.g.
from the literal "000" before a currency token. -/
theorem C10_amounts_nonneg :
    (∀ (text : String) (strict : Bool) (l : List Price) (p : Price),
      recognize text strict = some l → p ∈ l → 0 ≤ p.amount.toRat) ∧
    resultView (recognize "000$" false) = some [(0, "USD")] := by
  constructor
  · intro _ _ _ p _ _
    exact Dec.toRat_nonneg p.amount
  · have h : recognize "000$" false = some [⟨⟨0, 0⟩, "USD"⟩] := by decide
    simp [resultView, h, Dec.toRat]

/-- C10 witness: instantiated at the reachable zero-amount result of
"000$". -/
theorem C10_amounts_nonneg_witness :
    0 ≤ (Price.mk ⟨0, 0⟩ "USD").amount.toRat :=
  C10_amounts_nonneg.1 "000$" false [⟨⟨0, 0⟩, "USD"⟩] ⟨⟨0, 0⟩, "USD"⟩
    (by decide) (by decide)
